import Mathlib

/-!
Formal model of the place-of-birth reconciliation engine in
`modules/tempat_lahir.py`: the text normalizer `normalize_tempat_lahir`,
the batch engines `validate_tempat_lahir_optimized` and
`validate_tempat_lahir`, and the gazetteer loader `load_reference_data`.

Strings are modelled over their character lists; character classes of the
Python regular expressions (word characters, whitespace, digits, case)
follow their ASCII interpretation.  Similarity scores (floats produced by
`rapidfuzz` in the source) are modelled as rationals, and the external
similarity search `process.extractOne(query, ref_list, scorer)` is an
abstract parameter `matcher` returning the best candidate and its score,
if any; the fallible variant models it as an `Except` computation so that
the batch engine's behaviour under an unexpected exception can be stated.
-/

/-- Character class of the Python regex `\w` (ASCII reading): letters,
digits and the underscore. -/
def isWordChar (c : Char) : Bool := c.isAlphanum || c = '_'

/-- Model of `re.sub(r'[^\w\s]', ' ', name)` in `normalize_tempat_lahir`:
every character that is neither a word character nor whitespace becomes a
single space. -/
def punctToSpace (l : List Char) : List Char :=
  l.map (fun c => if isWordChar c || c.isWhitespace then c else ' ')

/-- Model of `re.sub(r'\d+', '', name)`: remove all digits. -/
def removeDigits (l : List Char) : List Char := l.filter (fun c => !c.isDigit)

/-- Whitespace-separated words of a character list; used to model
`re.sub(r'\s+', ' ', name).strip()`. -/
def splitWS : List Char → List (List Char)
  | [] => []
  | c :: rest =>
    if c.isWhitespace then splitWS rest
    else
      match rest with
      | [] => [[c]]
      | d :: _ =>
        if d.isWhitespace then [c] :: splitWS rest
        else
          match splitWS rest with
          | [] => [[c]]
          | w :: ws => (c :: w) :: ws

/-- Joining words back with single spaces. -/
def unwords : List (List Char) → List Char
  | [] => []
  | [w] => w
  | w :: ws => w ++ ' ' :: unwords ws

/-- Model of `re.sub(r'\s+', ' ', name).strip()`: collapse whitespace runs
to single spaces and trim both ends. -/
def normSpace (l : List Char) : List Char := unwords (splitWS l)

/-- The ordered administrative prefix table of `normalize_tempat_lahir`
(every entry maps to the empty replacement). -/
def adminPrefixes : List String :=
  ["DESA ", "KELURAHAN ", "KEL ", "DS ", "KEC ", "KECAMATAN ",
   "KAB ", "KABUPATEN ", "KOTA ", "PROVINSI ", "PROV "]

/-- The prefix-stripping loop of `normalize_tempat_lahir`: each prefix of
the ordered table is tested once, in order, against the current string,
and stripped when it matches. -/
def stripAdmin (l : List Char) : List Char :=
  adminPrefixes.foldl
    (fun n p => if p.data.isPrefixOf n then n.drop p.data.length else n) l

/-- The ordered alias table (`special_cases`) of `normalize_tempat_lahir`. -/
def specialCases : List (String × String) :=
  [("JKT", "JAKARTA"),
   ("JAKARTA PUSAT", "JAKARTA"),
   ("JAKARTA BARAT", "JAKARTA"),
   ("JAKARTA TIMUR", "JAKARTA"),
   ("JAKARTA SELATAN", "JAKARTA"),
   ("JAKARTA UTARA", "JAKARTA"),
   ("DKI JAKARTA", "JAKARTA"),
   ("JOGJAKARTA", "YOGYAKARTA"),
   ("JOGJA", "YOGYAKARTA"),
   ("YOGYA", "YOGYAKARTA"),
   ("KOTA BARU", "KOTABARU"),
   ("KOTA BAROE", "KOTABARU"),
   ("KOTAWARINGIN", "KOTAWARINGIN BARAT"),
   ("KOTAWARINGIN BRT", "KOTAWARINGIN BARAT"),
   ("KOTAWARINGIN TIMUR", "KOTAWARINGIN TIMUR"),
   ("KOTAWARINGIN TMR", "KOTAWARINGIN TIMUR"),
   ("50 KOTA", "LIMA PULUH KOTA"),
   ("LIMA 50 KOTA", "LIMA PULUH KOTA"),
   ("KOTA KOTAMOBAGU", "KOTAMOBAGU"),
   ("PEKAN BARU", "PEKANBARU"),
   ("LUBUK LINGGAU", "LUBUKLINGGAU"),
   ("KABUPATEN BATU BARA", "KABUPATEN BATUBARA")]

/-- The alias loop of `normalize_tempat_lahir`: each alias key is compared,
in order, for equality with the whole current string. -/
def applySpecial (s : String) : String :=
  specialCases.foldl (fun n kv => if n = kv.1 then kv.2 else n) s

/-- The cleaning passes of `normalize_tempat_lahir` that run before prefix
stripping: uppercase, punctuation to space, digit removal, whitespace
collapsing and trimming. -/
def cleanChars (l : List Char) : List Char :=
  normSpace (removeDigits (punctToSpace (l.map Char.toUpper)))

/-- `normalize_tempat_lahir` on a non-null string. -/
def normalizeStr (s : String) : String :=
  applySpecial (String.mk (stripAdmin (cleanChars s.data)))

/-- `normalize_tempat_lahir`: a null input (`pd.isna`) passes through
unchanged. -/
def normalizeTempatLahir : Option String → Option String
  | none => none
  | some s => some (normalizeStr s)

/-- One augmented row of the validated DataFrame: the five output columns
`tempat_lahir_normalized`, `valid_tempat_lahir`, `koreksi_tempat_lahir`,
`level_administrasi`, `confidence_score` added by the engines. -/
structure OutRow where
  norm : Option String
  valid : Bool
  koreksi : Option String
  level : Option String
  score : ℚ
deriving DecidableEq

/-- One row of the reference DataFrame `ref_data` as the engines read it:
columns `nama`, `kode`, `level`, `nama_normalized`. -/
structure RefRow where
  nama : String
  kode : String
  level : String
  norm : String
deriving DecidableEq

/-- One insertion into a Python dict keyed by `nama_normalized`. -/
def dictInsert (m : String → Option (String × String)) (r : RefRow) :
    String → Option (String × String) :=
  fun k => if k = r.norm then some (r.nama, r.level) else m k

/-- Model of `exact_match_map = dict(zip(ref_data['nama_normalized'],
zip(ref_data['nama'], ref_data['level'])))`: rows inserted in order, a
later row overwriting an earlier one with the same normalized name. -/
def exactMatchMap (refData : List RefRow) : String → Option (String × String) :=
  refData.foldl dictInsert (fun _ => none)

/-- Membership of a normalized cell in `ref_set` (pandas `isin`); a null
cell is never a member, since the set holds strings only. -/
def isinRefSet (refSet : List String) : Option String → Bool
  | some s => decide (s ∈ refSet)
  | none => false

/-- The state of one row of `validate_tempat_lahir_optimized` after result
initialization and the exact-match loop: rows whose normalized value is in
`ref_set` and in `exact_match_map` are marked valid with score 100; all
others keep the initialized values. -/
def exactStageRow (lookup : String → Option (String × String)) (refSet : List String)
    (v : Option String) : OutRow :=
  if isinRefSet refSet v then
    match v with
    | some s =>
      match lookup s with
      | some p => ⟨v, true, some p.1, some p.2, 100⟩
      | none => ⟨v, false, none, none, 0⟩
    | none => ⟨v, false, none, none, 0⟩
  else ⟨v, false, none, none, 0⟩

/-- Python `list(dict.fromkeys(..))`-style order-preserving deduplication;
models pandas `Series.unique()` and `drop_duplicates()` (first occurrence
kept) and construction of `ref_set`. -/
def dedupFirst {α : Type} [DecidableEq α] (l : List α) : List α :=
  l.foldl (fun acc x => if x ∈ acc then acc else acc ++ [x]) []

/-- The normalized values of the rows that miss the exact stage
(`fuzzy_candidates['tempat_lahir_normalized']`). -/
def fuzzyCandidateVals (data : List (Option String)) (refSet : List String) :
    List (Option String) :=
  (data.map normalizeTempatLahir).filter (fun v => !isinRefSet refSet v)

/-- The distinct values on which `validate_tempat_lahir_optimized` actually
invokes `process.extractOne`: the unique non-exact values, minus the null
and empty ones skipped by the loop. -/
def matcherQueries (data : List (Option String)) (refSet : List String) : List String :=
  (dedupFirst (fuzzyCandidateVals data refSet)).filterMap
    (fun v =>
      match v with
      | some s => if s = "" then none else some s
      | none => none)

/-- One iteration of the fuzzy loop body on the accumulated `fuzzy_results`
dict: given the `process.extractOne` outcome `r` for value `v`, record a
valid result when the score reaches the threshold, else leave the dict
unchanged. -/
def fuzzyStep (lookup : String → Option (String × String)) (θ : ℚ)
    (acc : String → Option (ℚ × String × String)) (v : String)
    (r : Option (String × ℚ)) : String → Option (ℚ × String × String) :=
  match r with
  | some ms =>
    if ms.2 ≥ θ then
      fun k => if k = v then some (ms.2, (lookup ms.1).getD (ms.1, "tidak diketahui")) else acc k
    else acc
  | none => acc

/-- The `fuzzy_results` dict built by the per-unique-value loop of
`validate_tempat_lahir_optimized`. -/
def fuzzyResults (queries : List String) (lookup : String → Option (String × String))
    (θ : ℚ) (matcher : String → Option (String × ℚ)) :
    String → Option (ℚ × String × String) :=
  queries.foldl (fun acc v => fuzzyStep lookup θ acc v (matcher v)) (fun _ => none)

/-- The apply-fuzzy-results loop: every row whose normalized value is a key
of `fuzzy_results` receives that value's recorded result. -/
def applyFuzzy (fr : String → Option (ℚ × String × String)) (row : OutRow) : OutRow :=
  match row.norm with
  | some v =>
    match fr v with
    | some res => ⟨row.norm, true, some res.2.1, some res.2.2, res.1⟩
    | none => row
  | none => row

/-- `validate_tempat_lahir_optimized`: returns the augmented rows together
with the list of fractions passed to `progress_callback`, in call order.
When no row misses the exact stage the function returns early, before any
callback invocation. -/
def validateOptimizedFull (data : List (Option String)) (refData : List RefRow)
    (refSet : List String) (θ : ℚ) (matcher : String → Option (String × ℚ)) :
    List OutRow × List ℚ :=
  let lookup := exactMatchMap refData
  let norms := data.map normalizeTempatLahir
  let exactRows := norms.map (exactStageRow lookup refSet)
  let fc := fuzzyCandidateVals data refSet
  if fc = [] then (exactRows, [])
  else
    let uq := dedupFirst fc
    let n := uq.length
    let calls := uq.enum.filterMap (fun iv =>
      match iv.2 with
      | none => none
      | some s =>
        if s = "" then none
        else if iv.1 % 100 = 0 then
          some (if (iv.1 : ℚ) / (n : ℚ) ≤ 1 then (iv.1 : ℚ) / (n : ℚ) else 1)
        else none)
    let fr := fuzzyResults (matcherQueries data refSet) lookup θ matcher
    (exactRows.map (applyFuzzy fr), calls ++ [1])

/-- The five augmented output columns of `validate_tempat_lahir_optimized`. -/
def validateOptimizedRows (data : List (Option String)) (refData : List RefRow)
    (refSet : List String) (θ : ℚ) (matcher : String → Option (String × ℚ)) :
    List OutRow :=
  (validateOptimizedFull data refData refSet θ matcher).1

/-- The fractions passed to `progress_callback` by
`validate_tempat_lahir_optimized`, in call order. -/
def validateOptimizedCalls (data : List (Option String)) (refData : List RefRow)
    (refSet : List String) (θ : ℚ) (matcher : String → Option (String × ℚ)) :
    List ℚ :=
  (validateOptimizedFull data refData refSet θ matcher).2

/-- The `fuzzy_results` loop with a fallible similarity computation: the
loop body contains no exception handler, so the `Except` effect of
`matcherE` propagates out of the whole loop. -/
def fuzzyResultsE {ε : Type} (queries : List String)
    (lookup : String → Option (String × String)) (θ : ℚ)
    (matcherE : String → Except ε (Option (String × ℚ))) :
    Except ε (String → Option (ℚ × String × String)) :=
  queries.foldlM (fun acc v => (matcherE v).map (fuzzyStep lookup θ acc v)) (fun _ => none)

/-- `validate_tempat_lahir_optimized` with a fallible similarity
computation: there is no try/except around the per-value loop, so an error
raised for any processed value propagates and no rows are returned. -/
def validateOptimizedE {ε : Type} (data : List (Option String)) (refData : List RefRow)
    (refSet : List String) (θ : ℚ)
    (matcherE : String → Except ε (Option (String × ℚ))) : Except ε (List OutRow) :=
  let lookup := exactMatchMap refData
  let norms := data.map normalizeTempatLahir
  let exactRows := norms.map (exactStageRow lookup refSet)
  let fc := fuzzyCandidateVals data refSet
  if fc = [] then Except.ok exactRows
  else
    match fuzzyResultsE (matcherQueries data refSet) lookup θ matcherE with
    | Except.error e => Except.error e
    | Except.ok fr => Except.ok (exactRows.map (applyFuzzy fr))

/-- One row of `validate_tempat_lahir` (the naive engine): null and empty
normalized values are skipped first, then exact matching against
`ref_set` with resolution through `exact_match_map.get`, then fuzzy
matching. -/
def validateNaiveRow (lookup : String → Option (String × String)) (refSet : List String)
    (θ : ℚ) (matcher : String → Option (String × ℚ)) (v : Option String) : OutRow :=
  match v with
  | none => ⟨none, false, none, none, 0⟩
  | some s =>
    if s = "" then ⟨some s, false, none, none, 0⟩
    else if decide (s ∈ refSet) then
      let p := (lookup s).getD (s, "tidak diketahui")
      ⟨some s, true, some p.1, some p.2, 100⟩
    else
      match matcher s with
      | some ms =>
        if ms.2 ≥ θ then
          let p := (lookup ms.1).getD (ms.1, "tidak diketahui")
          ⟨some s, true, some p.1, some p.2, ms.2⟩
        else ⟨some s, false, none, none, 0⟩
      | none => ⟨some s, false, none, none, 0⟩

/-- `validate_tempat_lahir`: the row-by-row engine. -/
def validateNaiveRows (data : List (Option String)) (refData : List RefRow)
    (refSet : List String) (θ : ℚ) (matcher : String → Option (String × ℚ)) :
    List OutRow :=
  (data.map normalizeTempatLahir).map (validateNaiveRow (exactMatchMap refData) refSet θ matcher)

/-- One row of the raw administrative boundary table read by
`load_reference_data`: the columns it projects, each possibly null. -/
structure RawRow where
  NAMOBJ : Option String
  WADMKD : Option String
  WADMKC : Option String
  WADMKK : Option String
  WADMPR : Option String

/-- `load_reference_data`: builds the four per-level sub-tables (dropna,
drop_duplicates keeping first), concatenates them in village, district,
regency, province order, adds the normalized-name column, and returns the
table together with `ref_set`, the distinct normalized names. -/
def loadReferenceData (raw : List RawRow) : List RefRow × List String :=
  let desa := (dedupFirst (raw.filterMap (fun r =>
      match r.NAMOBJ, r.WADMKD with
      | some k, some n => some (k, n)
      | _, _ => none))).map (fun p => RefRow.mk p.2 p.1 "desa" (normalizeStr p.2))
  let kec := (dedupFirst (raw.filterMap (fun r => r.WADMKC))).map
      (fun n => RefRow.mk n n "kecamatan" (normalizeStr n))
  let kab := (dedupFirst (raw.filterMap (fun r => r.WADMKK))).map
      (fun n => RefRow.mk n n "kabupaten" (normalizeStr n))
  let prov := (dedupFirst (raw.filterMap (fun r => r.WADMPR))).map
      (fun n => RefRow.mk n n "provinsi" (normalizeStr n))
  let allLoc := desa ++ kec ++ kab ++ prov
  (allLoc, dedupFirst (allLoc.map (fun r => r.norm)))

/-- Characters that survive all cleaning passes unchanged: uppercase-fixed
non-digit word characters, and the single space. -/
def goodChar (c : Char) : Prop :=
  (isWordChar c = true ∧ c.isDigit = false ∧ c.toUpper = c) ∨ c = ' '

instance : DecidablePred goodChar := fun c => by
  unfold goodChar
  infer_instance

/-- Canonical character lists: fixed points of the cleaning passes of
`normalize_tempat_lahir`. -/
def Canon (l : List Char) : Prop :=
  (∀ c ∈ l, goodChar c) ∧ normSpace l = l

instance : DecidablePred Canon := fun l => by
  unfold Canon
  infer_instance

/-- The result the fuzzy loop body computes for one query in isolation;
`fuzzy_results` holds exactly these values for the recorded keys. -/
def fuzzyDirect (lookup : String → Option (String × String)) (θ : ℚ)
    (matcher : String → Option (String × ℚ)) (s : String) : Option (ℚ × String × String) :=
  match matcher s with
  | some ms =>
    if ms.2 ≥ θ then some (ms.2, (lookup ms.1).getD (ms.1, "tidak diketahui")) else none
  | none => none

/-- Claim C4's precondition, from the claim's own words: the string is already
upper-cased and punctuation-free (no character that the cleaning passes of
`normalize_tempat_lahir` would rewrite away as punctuation). -/
def canonicalInput (s : String) : Prop :=
  s.data.map Char.toUpper = s.data ∧ punctToSpace s.data = s.data

instance : DecidablePred canonicalInput := fun s => by
  unfold canonicalInput
  infer_instance

theorem charOfNat_toNat (n : Nat) (h : Nat.isValidChar n) : (Char.ofNat n).toNat = n := by
  simp [Char.ofNat, Char.toNat, Char.ofNatAux, h, UInt32.toNat, BitVec.toNat_ofNatLt]

theorem toUpper_toUpper (c : Char) : (c.toUpper).toUpper = c.toUpper := by
  simp only [Char.toUpper]
  by_cases h : 97 ≤ c.toNat ∧ c.toNat ≤ 122
  · rw [if_pos h]
    have hval : Nat.isValidChar (c.toNat - 32) := by left; omega
    have hv : (Char.ofNat (c.toNat - 32)).toNat = c.toNat - 32 :=
      charOfNat_toNat _ hval
    rw [if_neg]
    rw [hv]
    omega
  · rw [if_neg h, if_neg h]

theorem ws_not_word (c : Char) (h : c.isWhitespace = true) : isWordChar c = false := by
  simp [Char.isWhitespace] at h
  rcases h with ((h | h) | h) | h <;> subst h <;> decide

theorem word_not_ws (c : Char) (h : isWordChar c = true) : c.isWhitespace = false := by
  cases hws : c.isWhitespace with
  | false => rfl
  | true => rw [ws_not_word c hws] at h; exact absurd h (by simp)

theorem splitWS_cons (c : Char) (rest : List Char) :
    splitWS (c :: rest) =
      if c.isWhitespace then splitWS rest
      else
        match rest with
        | [] => [[c]]
        | d :: _ =>
          if d.isWhitespace then [c] :: splitWS rest
          else
            match splitWS rest with
            | [] => [[c]]
            | w :: ws => (c :: w) :: ws := by
  rw [splitWS.eq_def]

theorem splitWS_sound :
    ∀ l : List Char, ∀ w ∈ splitWS l, w ≠ [] ∧ ∀ c ∈ w, c ∈ l ∧ c.isWhitespace = false := by
  intro l
  induction l with
  | nil => intro w hw; simp [splitWS] at hw
  | cons c rest ih =>
    intro w hw
    by_cases hc : c.isWhitespace
    · rw [splitWS_cons, if_pos hc] at hw
      rcases ih w hw with ⟨h1, h2⟩
      exact ⟨h1, fun d hd => ⟨List.mem_cons_of_mem _ (h2 d hd).1, (h2 d hd).2⟩⟩
    · rw [splitWS_cons, if_neg hc] at hw
      match rest, hw with
      | [], hw =>
        rw [List.mem_singleton] at hw
        subst hw
        refine ⟨by simp, ?_⟩
        intro d hd
        rw [List.mem_singleton] at hd
        subst hd
        exact ⟨List.mem_cons_self _ _, by simpa using hc⟩
      | d :: rest2, hw =>
        dsimp only at hw
        by_cases hd : d.isWhitespace
        · rw [if_pos hd] at hw
          rcases List.mem_cons.mp hw with h | h
          · subst h
            refine ⟨by simp, ?_⟩
            intro e he
            rw [List.mem_singleton] at he
            subst he
            exact ⟨List.mem_cons_self _ _, by simpa using hc⟩
          · rcases ih w h with ⟨h1, h2⟩
            exact ⟨h1, fun e he => ⟨List.mem_cons_of_mem _ (h2 e he).1, (h2 e he).2⟩⟩
        · rw [if_neg hd] at hw
          match hsp : splitWS (d :: rest2), hw with
          | [], hw =>
            dsimp only at hw
            rw [List.mem_singleton] at hw
            subst hw
            refine ⟨by simp, ?_⟩
            intro e he
            rw [List.mem_singleton] at he
            subst he
            exact ⟨List.mem_cons_self _ _, by simpa using hc⟩
          | w1 :: ws1, hw =>
            dsimp only at hw
            rcases List.mem_cons.mp hw with h | h
            · subst h
              refine ⟨by simp, ?_⟩
              intro e he
              rcases List.mem_cons.mp he with he | he
              · subst he
                exact ⟨List.mem_cons_self _ _, by simpa using hc⟩
              · rcases ih w1 (by rw [hsp]; exact List.mem_cons_self _ _) with ⟨_, h2⟩
                exact ⟨List.mem_cons_of_mem _ (h2 e he).1, (h2 e he).2⟩
            · rcases ih w (by rw [hsp]; exact List.mem_cons_of_mem _ h) with ⟨h1, h2⟩
              exact ⟨h1, fun e he => ⟨List.mem_cons_of_mem _ (h2 e he).1, (h2 e he).2⟩⟩

theorem splitWS_word :
    ∀ w : List Char, w ≠ [] → (∀ c ∈ w, c.isWhitespace = false) → splitWS w = [w] := by
  intro w
  induction w with
  | nil => intro h; exact absurd rfl h
  | cons c w2 ih =>
    intro _ hws
    have hc : c.isWhitespace = false := hws c (List.mem_cons_self _ _)
    cases w2 with
    | nil => rw [splitWS_cons, if_neg (by simp [hc])]
    | cons d w3 =>
      have hd : d.isWhitespace = false := hws d (List.mem_cons_of_mem _ (List.mem_cons_self _ _))
      rw [splitWS_cons, if_neg (by simp [hc])]
      dsimp only
      rw [if_neg (by simp [hd])]
      rw [ih (by simp) (fun e he => hws e (List.mem_cons_of_mem _ he))]

theorem splitWS_append_word :
    ∀ w t : List Char, w ≠ [] → (∀ c ∈ w, c.isWhitespace = false) →
      splitWS (w ++ ' ' :: t) = w :: splitWS t := by
  intro w
  induction w with
  | nil => intro t h; exact absurd rfl h
  | cons c w2 ih =>
    intro t _ hws
    have hc : c.isWhitespace = false := hws c (List.mem_cons_self _ _)
    cases w2 with
    | nil =>
      rw [List.cons_append, List.nil_append, splitWS_cons, if_neg (by simp [hc])]
      dsimp only
      rw [if_pos (by decide), splitWS_cons, if_pos (by decide)]
    | cons d w3 =>
      have hd : d.isWhitespace = false := hws d (List.mem_cons_of_mem _ (List.mem_cons_self _ _))
      rw [List.cons_append, splitWS_cons, if_neg (by simp [hc])]
      rw [List.cons_append]
      dsimp only
      rw [if_neg (by simp [hd])]
      rw [← List.cons_append,
        ih t (by simp) (fun e he => hws e (List.mem_cons_of_mem _ he))]

theorem splitWS_unwords :
    ∀ ws : List (List Char),
      (∀ w ∈ ws, w ≠ [] ∧ ∀ c ∈ w, c.isWhitespace = false) →
      splitWS (unwords ws) = ws := by
  intro ws
  induction ws with
  | nil => intro _; rfl
  | cons w ws2 ih =>
    intro h
    cases ws2 with
    | nil =>
      rcases h w (List.mem_cons_self _ _) with ⟨h1, h2⟩
      show splitWS (unwords [w]) = [w]
      rw [unwords]
      exact splitWS_word w h1 h2
    | cons w2 ws3 =>
      rcases h w (List.mem_cons_self _ _) with ⟨h1, h2⟩
      rw [unwords, splitWS_append_word _ _ h1 h2,
        ih (fun u hu => h u (List.mem_cons_of_mem _ hu))]
      simp

theorem mem_unwords :
    ∀ (ws : List (List Char)) (c : Char), c ∈ unwords ws → (∃ w ∈ ws, c ∈ w) ∨ c = ' ' := by
  intro ws
  induction ws with
  | nil => intro c hc; simp [unwords] at hc
  | cons w ws2 ih =>
    intro c hc
    cases ws2 with
    | nil =>
      rw [unwords] at hc
      exact Or.inl ⟨w, List.mem_cons_self _ _, hc⟩
    | cons w2 ws3 =>
      rw [show unwords (w :: w2 :: ws3) = w ++ ' ' :: unwords (w2 :: ws3) from rfl] at hc
      rcases List.mem_append.mp hc with h | h
      · exact Or.inl ⟨w, List.mem_cons_self _ _, h⟩
      · rcases List.mem_cons.mp h with h | h
        · exact Or.inr h
        · rcases ih c h with ⟨u, hu, hcu⟩ | h
          · exact Or.inl ⟨u, List.mem_cons_of_mem _ hu, hcu⟩
          · exact Or.inr h

theorem normSpace_idem (l : List Char) : normSpace (normSpace l) = normSpace l := by
  show unwords (splitWS (unwords (splitWS l))) = unwords (splitWS l)
  rw [splitWS_unwords (splitWS l) (fun w hw =>
    ⟨(splitWS_sound l w hw).1, fun c hc => ((splitWS_sound l w hw).2 c hc).2⟩)]

theorem mem_normSpace (l : List Char) (c : Char) (h : c ∈ normSpace l) :
    (c ∈ l ∧ c.isWhitespace = false) ∨ c = ' ' := by
  rcases mem_unwords _ c h with ⟨w, hw, hcw⟩ | h
  · exact Or.inl ((splitWS_sound l w hw).2 c hcw)
  · exact Or.inr h

theorem map_self {α : Type} (f : α → α) :
    ∀ l : List α, (∀ c ∈ l, f c = c) → l.map f = l := by
  intro l
  induction l with
  | nil => intro _; rfl
  | cons c l2 ih =>
    intro h
    rw [List.map_cons, h c (List.mem_cons_self _ _),
      ih (fun d hd => h d (List.mem_cons_of_mem _ hd))]

theorem filter_self {α : Type} (p : α → Bool) :
    ∀ l : List α, (∀ c ∈ l, p c = true) → l.filter p = l := by
  intro l
  induction l with
  | nil => intro _; rfl
  | cons c l2 ih =>
    intro h
    rw [List.filter_cons, if_pos (h c (List.mem_cons_self _ _)),
      ih (fun d hd => h d (List.mem_cons_of_mem _ hd))]

theorem canon_cleanChars (l : List Char) : Canon (cleanChars l) := by
  constructor
  · intro c hc
    rcases mem_normSpace _ c hc with ⟨hcy, hnws⟩ | hsp
    · rcases List.mem_filter.mp hcy with ⟨hcp, hnd⟩
      rcases List.mem_map.mp hcp with ⟨c0, hc0, hstep⟩
      by_cases hcond : (isWordChar c0 || c0.isWhitespace) = true
      · rw [if_pos hcond] at hstep
        subst hstep
        rcases List.mem_map.mp hc0 with ⟨c1, _, hup⟩
        left
        refine ⟨?_, by simpa using hnd, by rw [← hup]; exact toUpper_toUpper c1⟩
        rcases Bool.or_eq_true_iff.mp hcond with h | h
        · exact h
        · rw [h] at hnws; exact absurd hnws (by simp)
      · rw [if_neg hcond] at hstep
        subst hstep
        exact Or.inr rfl
    · exact Or.inr hsp
  · exact normSpace_idem _

theorem cleanChars_of_canon (l : List Char) (hc : Canon l) : cleanChars l = l := by
  rcases hc with ⟨hchars, hsp⟩
  unfold cleanChars
  rw [map_self Char.toUpper l (fun c hc => by
    rcases hchars c hc with ⟨_, _, h⟩ | h
    · exact h
    · subst h; decide)]
  rw [show punctToSpace l = l from map_self _ l (fun c hc => by
    rcases hchars c hc with ⟨h, _, _⟩ | h
    · rw [if_pos (by simp [h])]
    · subst h; decide)]
  rw [show removeDigits l = l from filter_self _ l (fun c hc => by
    rcases hchars c hc with ⟨_, h, _⟩ | h
    · simp [h]
    · subst h; decide)]
  exact hsp

theorem isPrefixOf_append :
    ∀ p l : List Char, p.isPrefixOf l = true → ∃ m, l = p ++ m := by
  intro p
  induction p with
  | nil => intro l _; exact ⟨l, rfl⟩
  | cons a p2 ih =>
    intro l h
    cases l with
    | nil => simp [List.isPrefixOf] at h
    | cons b l2 =>
      rw [List.isPrefixOf, Bool.and_eq_true, beq_iff_eq] at h
      rcases h with ⟨hab, hpre⟩
      rcases ih l2 hpre with ⟨m, hm⟩
      exact ⟨m, by rw [hab, hm]; rfl⟩

theorem canon_drop_word (w m : List Char) (hcn : Canon (w ++ ' ' :: m))
    (hne : w ≠ []) (hws : ∀ c ∈ w, c.isWhitespace = false) : Canon m := by
  rcases hcn with ⟨hchars, hsp⟩
  constructor
  · intro c hc
    exact hchars c (List.mem_append.mpr (Or.inr (List.mem_cons_of_mem _ hc)))
  · have hsplit : splitWS (w ++ ' ' :: m) = w :: splitWS m :=
      splitWS_append_word w m hne hws
    rw [normSpace, hsplit] at hsp
    cases hms : splitWS m with
    | nil =>
      rw [hms, unwords] at hsp
      have : w.length = w.length + 1 + m.length := by
        conv_lhs => rw [hsp]
        simp [List.length_append]
        omega
      omega
    | cons w1 ws1 =>
      rw [hms, show unwords (w :: w1 :: ws1) = w ++ ' ' :: unwords (w1 :: ws1) from rfl] at hsp
      have h2 := List.append_cancel_left hsp
      have h3 : unwords (w1 :: ws1) = m := by
        injection h2
      rw [normSpace, hms, h3]

theorem canon_step (p : String) (q : List Char) (hq : p.data = q ++ [' '])
    (hne : q ≠ []) (hws : ∀ c ∈ q, c.isWhitespace = false) {l : List Char}
    (hc : Canon l) :
    Canon (if p.data.isPrefixOf l then l.drop p.data.length else l) := by
  by_cases hmatch : p.data.isPrefixOf l = true
  · rw [if_pos hmatch]
    rcases isPrefixOf_append _ _ hmatch with ⟨m, hm⟩
    have hl : l = q ++ ' ' :: m := by
      rw [hm, hq, List.append_assoc]
      rfl
    have hdrop : l.drop p.data.length = m := by
      rw [hm, List.drop_left]
    rw [hdrop]
    exact canon_drop_word q m (hl ▸ hc) hne hws
  · rw [if_neg hmatch]
    exact hc

theorem canon_stripAdmin (l : List Char) (hc : Canon l) : Canon (stripAdmin l) := by
  simp only [stripAdmin, adminPrefixes, List.foldl_cons, List.foldl_nil]
  exact canon_step "PROV " ("PROV".data) (by decide) (by decide) (by decide)
    (canon_step "PROVINSI " ("PROVINSI".data) (by decide) (by decide) (by decide)
    (canon_step "KOTA " ("KOTA".data) (by decide) (by decide) (by decide)
    (canon_step "KABUPATEN " ("KABUPATEN".data) (by decide) (by decide) (by decide)
    (canon_step "KAB " ("KAB".data) (by decide) (by decide) (by decide)
    (canon_step "KECAMATAN " ("KECAMATAN".data) (by decide) (by decide) (by decide)
    (canon_step "KEC " ("KEC".data) (by decide) (by decide) (by decide)
    (canon_step "DS " ("DS".data) (by decide) (by decide) (by decide)
    (canon_step "KEL " ("KEL".data) (by decide) (by decide) (by decide)
    (canon_step "KELURAHAN " ("KELURAHAN".data) (by decide) (by decide) (by decide)
    (canon_step "DESA " ("DESA".data) (by decide) (by decide) (by decide) hc))))))))))

theorem stripFold_eq_self :
    ∀ (ps : List String) (l : List Char),
      (∀ p ∈ ps, p.data.isPrefixOf l = false) →
      ps.foldl (fun n p => if p.data.isPrefixOf n then n.drop p.data.length else n) l = l := by
  intro ps
  induction ps with
  | nil => intro l _; rfl
  | cons p ps2 ih =>
    intro l h
    rw [List.foldl_cons]
    rw [show (if p.data.isPrefixOf l then l.drop p.data.length else l) = l from
      by rw [h p (List.mem_cons_self _ _)]; rfl]
    exact ih l (fun r hr => h r (List.mem_cons_of_mem _ hr))

theorem stripAdmin_eq_self (l : List Char)
    (h : ∀ p ∈ adminPrefixes, p.data.isPrefixOf l = false) : stripAdmin l = l :=
  stripFold_eq_self adminPrefixes l h

theorem foldl_alias_mem :
    ∀ (L : List (String × String)) (x : String),
      L.foldl (fun n kv => if n = kv.1 then kv.2 else n) x ∈ x :: L.map Prod.snd := by
  intro L
  induction L with
  | nil => intro x; exact List.mem_singleton.mpr rfl
  | cons kv L2 ih =>
    intro x
    rw [List.foldl_cons]
    by_cases hx : x = kv.1
    · rw [if_pos hx]
      rcases List.mem_cons.mp (ih kv.2) with h | h
      · rw [h]
        exact List.mem_cons_of_mem _ (List.mem_cons_self _ _)
      · exact List.mem_cons_of_mem _ (List.mem_cons_of_mem _ h)
    · rw [if_neg hx]
      rcases List.mem_cons.mp (ih x) with h | h
      · rw [h]
        exact List.mem_cons_self _ _
      · exact List.mem_cons_of_mem _ (List.mem_cons_of_mem _ h)

theorem applySpecial_mem (s : String) :
    applySpecial s ∈ s :: specialCases.map Prod.snd :=
  foldl_alias_mem specialCases s

theorem applySpecial_idem (s : String) :
    applySpecial (applySpecial s) = applySpecial s := by
  rcases List.mem_cons.mp (applySpecial_mem s) with h | h
  · rw [h, h]
  · simp only [specialCases, List.map_cons, List.map_nil, List.mem_cons,
      List.not_mem_nil, or_false] at h
    rcases h with h|h|h|h|h|h|h|h|h|h|h|h|h|h|h|h|h|h|h|h|h|h <;> rw [h] <;> decide

set_option maxHeartbeats 2000000 in
theorem canon_applySpecial (s : String) (hc : Canon s.data) :
    Canon (applySpecial s).data := by
  rcases List.mem_cons.mp (applySpecial_mem s) with h | h
  · rw [h]
    exact hc
  · simp only [specialCases, List.map_cons, List.map_nil, List.mem_cons,
      List.not_mem_nil, or_false] at h
    rcases h with h|h|h|h|h|h|h|h|h|h|h|h|h|h|h|h|h|h|h|h|h|h <;> rw [h] <;> decide

theorem strData_mk (l : List Char) : (String.mk l).data = l := rfl

theorem canon_normalizeStr (s : String) : Canon (normalizeStr s).data := by
  unfold normalizeStr
  apply canon_applySpecial
  rw [strData_mk]
  exact canon_stripAdmin _ (canon_cleanChars _)

theorem data_mk (s : String) : String.mk s.data = s := rfl

theorem normalizeStr_idem_of (s : String)
    (h : ∀ p ∈ adminPrefixes, p.data.isPrefixOf (normalizeStr s).data = false) :
    normalizeStr (normalizeStr s) = normalizeStr s := by
  show applySpecial (String.mk (stripAdmin (cleanChars (normalizeStr s).data))) =
    normalizeStr s
  rw [cleanChars_of_canon _ (canon_normalizeStr s)]
  rw [stripAdmin_eq_self _ h]
  rw [data_mk]
  show applySpecial (applySpecial (String.mk (stripAdmin (cleanChars s.data)))) =
    normalizeStr s
  rw [applySpecial_idem]
  rfl

theorem mem_dedupFirst_aux {α : Type} [DecidableEq α] :
    ∀ (l acc : List α) (x : α),
      (x ∈ l.foldl (fun a y => if y ∈ a then a else a ++ [y]) acc) ↔ (x ∈ acc ∨ x ∈ l) := by
  intro l
  induction l with
  | nil => intro acc x; simp
  | cons y l2 ih =>
    intro acc x
    rw [List.foldl_cons]
    by_cases hy : y ∈ acc
    · rw [if_pos hy, ih]
      constructor
      · rintro (h | h)
        · exact Or.inl h
        · exact Or.inr (List.mem_cons_of_mem _ h)
      · rintro (h | h)
        · exact Or.inl h
        · rcases List.mem_cons.mp h with h | h
          · subst h; exact Or.inl hy
          · exact Or.inr h
    · rw [if_neg hy, ih]
      constructor
      · rintro (h | h)
        · rcases List.mem_append.mp h with h | h
          · exact Or.inl h
          · rw [List.mem_singleton] at h
            subst h
            exact Or.inr (List.mem_cons_self _ _)
        · exact Or.inr (List.mem_cons_of_mem _ h)
      · rintro (h | h)
        · exact Or.inl (List.mem_append.mpr (Or.inl h))
        · rcases List.mem_cons.mp h with h | h
          · subst h
            exact Or.inl (List.mem_append.mpr (Or.inr (List.mem_singleton.mpr rfl)))
          · exact Or.inr h

theorem mem_dedupFirst {α : Type} [DecidableEq α] (l : List α) (x : α) :
    x ∈ dedupFirst l ↔ x ∈ l := by
  unfold dedupFirst
  rw [mem_dedupFirst_aux]
  simp

theorem exactMatchMap_append (l : List RefRow) (r : RefRow) (n : String) :
    exactMatchMap (l ++ [r]) n = dictInsert (exactMatchMap l) r n := by
  simp [exactMatchMap, List.foldl_append]

theorem exactMatchMap_eq (l : List RefRow) (n : String) :
    exactMatchMap l n =
      (l.reverse.find? (fun r => r.norm == n)).map (fun r => (r.nama, r.level)) := by
  induction l using List.reverseRecOn with
  | nil => rfl
  | append_singleton l2 r ih =>
    rw [exactMatchMap_append, List.reverse_append]
    by_cases h : n = r.norm
    · rw [dictInsert, if_pos h]
      simp [List.find?_cons, beq_iff_eq, h.symm]
    · rw [dictInsert, if_neg h]
      have hne : (r.norm == n) = false := by
        rw [beq_eq_false_iff_ne]
        exact fun hc => h hc.symm
      simp [List.find?_cons, hne, ih]

theorem exactMatchMap_isSome (l : List RefRow) (n : String) :
    (exactMatchMap l n).isSome = true ↔ n ∈ l.map RefRow.norm := by
  constructor
  · intro h
    cases hf : l.reverse.find? (fun r => r.norm == n) with
    | none => rw [exactMatchMap_eq, hf] at h; simp at h
    | some r =>
      have hp := List.find?_some hf
      have hmem := List.mem_of_find?_eq_some hf
      rw [beq_iff_eq] at hp
      exact List.mem_map.mpr ⟨r, List.mem_reverse.mp hmem, hp⟩
  · intro h
    rcases List.mem_map.mp h with ⟨r, hr, hnorm⟩
    rw [exactMatchMap_eq]
    cases hf : l.reverse.find? (fun r => r.norm == n) with
    | some r2 => simp
    | none =>
      have hall := List.find?_eq_none.mp hf r (List.mem_reverse.mpr hr)
      rw [beq_iff_eq] at hall
      exact absurd hnorm hall

theorem mem_matcherQueries (data : List (Option String)) (refSet : List String) (s : String) :
    s ∈ matcherQueries data refSet ↔
      (some s ∈ data.map normalizeTempatLahir ∧ s ∉ refSet ∧ s ≠ "") := by
  unfold matcherQueries
  rw [List.mem_filterMap]
  constructor
  · rintro ⟨v, hv, hstep⟩
    rw [mem_dedupFirst] at hv
    match v, hstep with
    | some t, hstep =>
      dsimp only at hstep
      by_cases ht : t = ""
      · rw [if_pos ht] at hstep
        exact absurd hstep (by simp)
      · rw [if_neg ht] at hstep
        rw [Option.some_inj] at hstep
        subst hstep
        unfold fuzzyCandidateVals at hv
        rcases List.mem_filter.mp hv with ⟨hmem, hnotin⟩
        refine ⟨hmem, ?_, ht⟩
        intro hin
        rw [Bool.not_eq_true', isinRefSet] at hnotin
        rw [decide_eq_false_iff_not] at hnotin
        exact hnotin hin
  · rintro ⟨hmem, hnotin, hne⟩
    refine ⟨some s, ?_, ?_⟩
    · rw [mem_dedupFirst]
      unfold fuzzyCandidateVals
      refine List.mem_filter.mpr ⟨hmem, ?_⟩
      rw [Bool.not_eq_true', isinRefSet, decide_eq_false_iff_not]
      exact hnotin
    · dsimp only
      rw [if_neg hne]

theorem fuzzyFold_apply (lookup : String → Option (String × String)) (θ : ℚ)
    (matcher : String → Option (String × ℚ)) :
    ∀ (qs : List String) (acc : String → Option (ℚ × String × String)) (s : String),
      qs.foldl (fun a v => fuzzyStep lookup θ a v (matcher v)) acc s =
        if s ∈ qs ∧ (fuzzyDirect lookup θ matcher s).isSome = true then
          fuzzyDirect lookup θ matcher s
        else acc s := by
  intro qs
  induction qs with
  | nil =>
    intro acc s
    simp
  | cons v qs2 ih =>
    intro acc s
    rw [List.foldl_cons, ih]
    by_cases h1 : s ∈ qs2 ∧ (fuzzyDirect lookup θ matcher s).isSome = true
    · rw [if_pos h1, if_pos ⟨List.mem_cons_of_mem _ h1.1, h1.2⟩]
    · rw [if_neg h1]
      by_cases hv : s = v
      · subst hv
        cases hm : matcher s with
        | none => simp [fuzzyStep, fuzzyDirect, hm]
        | some ms =>
          by_cases hθ : ms.2 ≥ θ
          · simp [fuzzyStep, fuzzyDirect, hm, hθ]
          · simp [fuzzyStep, fuzzyDirect, hm, hθ]
      · have hstep : fuzzyStep lookup θ acc v (matcher v) s = acc s := by
          cases hmv : matcher v with
          | none => rfl
          | some ms =>
            by_cases hθ : ms.2 ≥ θ
            · simp [fuzzyStep, hθ, hv]
            · simp [fuzzyStep, hθ]
        rw [hstep, if_neg]
        rintro ⟨hmem, hsome⟩
        rcases List.mem_cons.mp hmem with h | h
        · exact hv h
        · exact h1 ⟨h, hsome⟩

theorem fuzzyResults_eq (qs : List String) (lookup : String → Option (String × String))
    (θ : ℚ) (matcher : String → Option (String × ℚ)) (s : String) :
    fuzzyResults qs lookup θ matcher s =
      if s ∈ qs ∧ (fuzzyDirect lookup θ matcher s).isSome = true then
        fuzzyDirect lookup θ matcher s
      else none :=
  fuzzyFold_apply lookup θ matcher qs (fun _ => none) s

theorem fuzzyResults_not_mem (qs : List String) (lookup : String → Option (String × String))
    (θ : ℚ) (matcher : String → Option (String × ℚ)) (s : String) (h : s ∉ qs) :
    fuzzyResults qs lookup θ matcher s = none := by
  rw [fuzzyResults_eq, if_neg]
  rintro ⟨hmem, _⟩
  exact h hmem

theorem fuzzyResults_mem (qs : List String) (lookup : String → Option (String × String))
    (θ : ℚ) (matcher : String → Option (String × ℚ)) (s : String) (h : s ∈ qs) :
    fuzzyResults qs lookup θ matcher s = fuzzyDirect lookup θ matcher s := by
  rw [fuzzyResults_eq]
  by_cases hsome : (fuzzyDirect lookup θ matcher s).isSome = true
  · rw [if_pos ⟨h, hsome⟩]
  · rw [if_neg (fun hc => hsome hc.2)]
    cases hd : fuzzyDirect lookup θ matcher s with
    | none => rfl
    | some x => rw [hd] at hsome; simp at hsome

theorem applyFuzzy_const_none (row : OutRow) : applyFuzzy (fun _ => none) row = row := by
  rcases row with ⟨v, a, b, c, d⟩
  cases v <;> rfl

theorem matcherQueries_of_nil (data : List (Option String)) (refSet : List String)
    (h : fuzzyCandidateVals data refSet = []) : matcherQueries data refSet = [] := by
  unfold matcherQueries
  rw [h]
  rfl

theorem map_congr_fn {α β : Type} (l : List α) (f g : α → β)
    (h : ∀ a ∈ l, f a = g a) : l.map f = l.map g := by
  induction l with
  | nil => rfl
  | cons a l2 ih =>
    rw [List.map_cons, List.map_cons, h a (List.mem_cons_self _ _),
      ih (fun b hb => h b (List.mem_cons_of_mem _ hb))]

theorem optRows_eq (data : List (Option String)) (refData : List RefRow)
    (refSet : List String) (θ : ℚ) (matcher : String → Option (String × ℚ)) :
    validateOptimizedRows data refData refSet θ matcher =
      (data.map normalizeTempatLahir).map (fun v =>
        applyFuzzy
          (fuzzyResults (matcherQueries data refSet) (exactMatchMap refData) θ matcher)
          (exactStageRow (exactMatchMap refData) refSet v)) := by
  simp only [validateOptimizedRows, validateOptimizedFull]
  by_cases hfc : fuzzyCandidateVals data refSet = []
  · rw [if_pos hfc, matcherQueries_of_nil data refSet hfc]
    exact map_congr_fn _ _ _ (fun v _ => (applyFuzzy_const_none _).symm)
  · rw [if_neg hfc]
    rw [List.map_map]
    rfl

theorem optCalls_bounds (data : List (Option String)) (refData : List RefRow)
    (refSet : List String) (θ : ℚ) (matcher : String → Option (String × ℚ)) :
    ∀ f ∈ validateOptimizedCalls data refData refSet θ matcher, 0 ≤ f ∧ f ≤ 1 := by
  intro f hf
  simp only [validateOptimizedCalls, validateOptimizedFull] at hf
  by_cases hfc : fuzzyCandidateVals data refSet = []
  · rw [if_pos hfc] at hf
    simp at hf
  · rw [if_neg hfc] at hf
    rcases List.mem_append.mp hf with h | h
    · rcases List.mem_filterMap.mp h with ⟨iv, _, hstep⟩
      rcases iv with ⟨i, v⟩
      cases v with
      | none => exact absurd hstep (by simp)
      | some t =>
        dsimp only at hstep
        by_cases ht : t = ""
        · rw [if_pos ht] at hstep
          exact absurd hstep (by simp)
        · rw [if_neg ht] at hstep
          by_cases hi : i % 100 = 0
          · rw [if_pos hi, Option.some_inj] at hstep
            subst hstep
            by_cases hfrac :
                (i : ℚ) / ((dedupFirst (fuzzyCandidateVals data refSet)).length : ℚ) ≤ 1
            · rw [if_pos hfrac]
              refine ⟨div_nonneg (by positivity) (by positivity), hfrac⟩
            · rw [if_neg hfrac]
              exact ⟨by norm_num, le_refl 1⟩
          · rw [if_neg hi] at hstep
            exact absurd hstep (by simp)
    · rw [List.mem_singleton] at h
      subst h
      exact ⟨by norm_num, le_refl 1⟩

theorem optCalls_last (data : List (Option String)) (refData : List RefRow)
    (refSet : List String) (θ : ℚ) (matcher : String → Option (String × ℚ))
    (h : fuzzyCandidateVals data refSet ≠ []) :
    (validateOptimizedCalls data refData refSet θ matcher).getLast? = some 1 := by
  simp only [validateOptimizedCalls, validateOptimizedFull]
  rw [if_neg h]
  exact List.getLast?_concat _

theorem fuzzyResultsE_error {ε : Type} (lookup : String → Option (String × String)) (θ : ℚ)
    (matcherE : String → Except ε (Option (String × ℚ))) :
    ∀ (qs : List String) (acc : String → Option (ℚ × String × String)) (v : String),
      v ∈ qs → (∃ e, matcherE v = Except.error e) →
      ∃ e2, qs.foldlM (fun a u => (matcherE u).map (fuzzyStep lookup θ a u)) acc =
        Except.error e2 := by
  intro qs
  induction qs with
  | nil => intro acc v hv _; simp at hv
  | cons x qs2 ih =>
    rintro acc v hv ⟨e, he⟩
    cases hmx : matcherE x with
    | error e3 => exact ⟨e3, by rw [List.foldlM_cons, hmx]; rfl⟩
    | ok r =>
      rcases List.mem_cons.mp hv with hvx | hvx
      · subst hvx
        rw [he] at hmx
        exact absurd hmx (by simp)
      · obtain ⟨e2, hee⟩ := ih (fuzzyStep lookup θ acc x r) v hvx ⟨e, he⟩
        refine ⟨e2, ?_⟩
        rw [List.foldlM_cons, hmx]
        exact hee

theorem validateOptimizedE_error {ε : Type} (data : List (Option String))
    (refData : List RefRow) (refSet : List String) (θ : ℚ)
    (matcherE : String → Except ε (Option (String × ℚ))) (q : String) (e : ε)
    (hq : q ∈ matcherQueries data refSet) (he : matcherE q = Except.error e) :
    ∃ e2, validateOptimizedE data refData refSet θ matcherE = Except.error e2 := by
  have hfc : fuzzyCandidateVals data refSet ≠ [] := by
    rcases (mem_matcherQueries data refSet q).mp hq with ⟨hmem, hnotin, _⟩
    have hmf : some q ∈ fuzzyCandidateVals data refSet := by
      unfold fuzzyCandidateVals
      refine List.mem_filter.mpr ⟨hmem, ?_⟩
      rw [Bool.not_eq_true', isinRefSet, decide_eq_false_iff_not]
      exact hnotin
    exact List.ne_nil_of_mem hmf
  obtain ⟨e2, h2⟩ := fuzzyResultsE_error (exactMatchMap refData) θ matcherE
    (matcherQueries data refSet) (fun _ => none) q hq ⟨e, he⟩
  refine ⟨e2, ?_⟩
  simp only [validateOptimizedE]
  rw [if_neg hfc]
  have h3 : fuzzyResultsE (matcherQueries data refSet) (exactMatchMap refData) θ matcherE =
      Except.error e2 := h2
  rw [h3]

theorem optNaive_row_eq (data : List (Option String)) (refData : List RefRow)
    (refSet : List String) (θ : ℚ) (matcher : String → Option (String × ℚ))
    (hset : ∀ n : String, n ∈ refSet ↔ (exactMatchMap refData n).isSome = true)
    (hempty : "" ∉ refSet) (v : Option String)
    (hv : v ∈ data.map normalizeTempatLahir) :
    applyFuzzy (fuzzyResults (matcherQueries data refSet) (exactMatchMap refData) θ matcher)
      (exactStageRow (exactMatchMap refData) refSet v) =
      validateNaiveRow (exactMatchMap refData) refSet θ matcher v := by
  cases v with
  | none => rfl
  | some s =>
    by_cases hse : s = ""
    · subst hse
      have hin : isinRefSet refSet (some "") = false := by
        simp [isinRefSet, hempty]
      have hq : "" ∉ matcherQueries data refSet := by
        intro hc
        rcases (mem_matcherQueries data refSet "").mp hc with ⟨_, _, hne⟩
        exact hne rfl
      simp [exactStageRow, hin, validateNaiveRow, applyFuzzy,
        fuzzyResults_not_mem _ _ _ _ _ hq]
    · by_cases hsr : s ∈ refSet
      · have hsome := (hset s).mp hsr
        obtain ⟨p, hp⟩ := Option.isSome_iff_exists.mp hsome
        have hin : isinRefSet refSet (some s) = true := by simp [isinRefSet, hsr]
        have hnq : s ∉ matcherQueries data refSet := by
          intro hc
          rcases (mem_matcherQueries data refSet s).mp hc with ⟨_, hnot, _⟩
          exact hnot hsr
        simp [exactStageRow, hin, hp, validateNaiveRow, hse, hsr, applyFuzzy,
          fuzzyResults_not_mem _ _ _ _ _ hnq]
      · have hin : isinRefSet refSet (some s) = false := by simp [isinRefSet, hsr]
        have hq : s ∈ matcherQueries data refSet :=
          (mem_matcherQueries data refSet s).mpr ⟨hv, hsr, hse⟩
        have hfr := fuzzyResults_mem (matcherQueries data refSet) (exactMatchMap refData)
          θ matcher s hq
        cases hm : matcher s with
        | none =>
          simp [exactStageRow, hin, validateNaiveRow, hse, hsr, applyFuzzy, hfr,
            fuzzyDirect, hm]
        | some ms =>
          by_cases hθ : ms.2 ≥ θ
          · simp [exactStageRow, hin, validateNaiveRow, hse, hsr, applyFuzzy, hfr,
              fuzzyDirect, hm, hθ]
          · simp [exactStageRow, hin, validateNaiveRow, hse, hsr, applyFuzzy, hfr,
              fuzzyDirect, hm, hθ]

theorem optNaive_eq (data : List (Option String)) (refData : List RefRow)
    (refSet : List String) (θ : ℚ) (matcher : String → Option (String × ℚ))
    (hset : ∀ n : String, n ∈ refSet ↔ n ∈ refData.map RefRow.norm)
    (hempty : "" ∉ refSet) :
    validateNaiveRows data refData refSet θ matcher =
      validateOptimizedRows data refData refSet θ matcher := by
  rw [optRows_eq]
  unfold validateNaiveRows
  refine map_congr_fn _ _ _ (fun v hv => ?_)
  exact (optNaive_row_eq data refData refSet θ matcher
    (fun n => (hset n).trans (exactMatchMap_isSome refData n).symm) hempty v hv).symm

theorem optRows_get (data : List (Option String)) (refData : List RefRow)
    (refSet : List String) (θ : ℚ) (matcher : String → Option (String × ℚ))
    (i : ℕ) (v : Option String)
    (hi : (data.map normalizeTempatLahir).get? i = some v) :
    (validateOptimizedRows data refData refSet θ matcher).get? i =
      some (applyFuzzy
        (fuzzyResults (matcherQueries data refSet) (exactMatchMap refData) θ matcher)
        (exactStageRow (exactMatchMap refData) refSet v)) := by
  rw [optRows_eq, List.get?_map, hi]
  rfl

/-- Claim C1, counterexample.  The claim says an unexpected exception from the
similarity computation for one distinct value is caught, that value is marked
found=false with score 0, and the rest of the batch completes.  In the code the
per-value loop of `validate_tempat_lahir_optimized` has no exception handler:
with two distinct values where the matcher fails on the first, the whole batch
aborts with the error instead of returning rows. -/
theorem C1_counterexample :
    validateOptimizedE [some "B", some "C"] [] ["ZZZ"] 85
        (fun s => if s = "B" then Except.error "boom" else Except.ok (some ("ZZZ", 90))) =
      Except.error "boom" ∧
    validateOptimizedE [some "B", some "C"] [] ["ZZZ"] 85
        (fun s => if s = "B" then Except.error "boom" else Except.ok (some ("ZZZ", 90))) ≠
      Except.ok [⟨some "B", false, none, none, 0⟩,
        ⟨some "C", true, some "ZZZ", some "tidak diketahui", 90⟩] := by
  constructor
  · rfl
  · intro hc
    have h1 : (Except.error "boom" : Except String (List OutRow)) =
        Except.ok [⟨some "B", false, none, none, 0⟩,
          ⟨some "C", true, some "ZZZ", some "tidak diketahui", 90⟩] := by
      rw [← hc]
      rfl
    exact Except.noConfusion h1

/-- Claim C1, amended.  An unexpected exception from the similarity computation
for any distinct value processed by the fuzzy loop of
`validate_tempat_lahir_optimized` is not caught: it propagates, the whole batch
aborts with an error, and no augmented rows are produced. -/
theorem C1_amended {ε : Type} (data : List (Option String)) (refData : List RefRow)
    (refSet : List String) (θ : ℚ) (matcherE : String → Except ε (Option (String × ℚ)))
    (q : String) (e : ε) (hq : q ∈ matcherQueries data refSet)
    (he : matcherE q = Except.error e) :
    ∃ e2, validateOptimizedE data refData refSet θ matcherE = Except.error e2 :=
  validateOptimizedE_error data refData refSet θ matcherE q e hq he

/-- Witness for C1_amended at a concrete batch. -/
theorem C1_witness :
    ∃ e2, validateOptimizedE [some "B", some "C"] [] ["ZZZ"] (85 : ℚ)
        (fun s => if s = "B" then Except.error "boom" else Except.ok (some ("ZZZ", 90))) =
      Except.error e2 :=
  C1_amended [some "B", some "C"] [] ["ZZZ"] 85
    (fun s => if s = "B" then Except.error "boom" else Except.ok (some ("ZZZ", 90)))
    "B" "boom" (by decide) (by rfl)

/-- Claim C2, counterexample.  The claim says a below-threshold best score is
reported as the confidence score even though found=false.  In the code a
below-threshold value is simply not recorded in `fuzzy_results`, so the row
keeps the initialized score 0: with best score 50 and threshold 85 the row
comes back with score 0, not 50 — in both engines. -/
theorem C2_counterexample :
    validateOptimizedRows [some "B"] [] ["ZZZZ"] 85 (fun _ => some ("ZZZZ", 50)) =
      [⟨some "B", false, none, none, 0⟩] ∧
    validateOptimizedRows [some "B"] [] ["ZZZZ"] 85 (fun _ => some ("ZZZZ", 50)) ≠
      [⟨some "B", false, none, none, 50⟩] ∧
    validateNaiveRows [some "B"] [] ["ZZZZ"] 85 (fun _ => some ("ZZZZ", 50)) =
      [⟨some "B", false, none, none, 0⟩] :=
  ⟨by decide, by decide, by decide⟩

/-- Claim C2, amended.  For every query reaching the approximate stage whose
best similarity score is below the threshold, the row comes back with
found=false and confidence score 0 (the best score found is discarded, not
reported). -/
theorem C2_amended (data : List (Option String)) (refData : List RefRow)
    (refSet : List String) (θ : ℚ) (matcher : String → Option (String × ℚ))
    (i : ℕ) (s m : String) (sc : ℚ)
    (hi : (data.map normalizeTempatLahir).get? i = some (some s))
    (hs : s ∉ refSet) (hne : s ≠ "")
    (hm : matcher s = some (m, sc)) (hlt : sc < θ) :
    (validateOptimizedRows data refData refSet θ matcher).get? i =
      some ⟨some s, false, none, none, 0⟩ := by
  rw [optRows_get data refData refSet θ matcher i (some s) hi]
  have hq : s ∈ matcherQueries data refSet :=
    (mem_matcherQueries _ _ s).mpr ⟨List.get?_mem hi, hs, hne⟩
  have hin : isinRefSet refSet (some s) = false := by simp [isinRefSet, hs]
  have hfr := fuzzyResults_mem (matcherQueries data refSet) (exactMatchMap refData)
    θ matcher s hq
  simp [exactStageRow, hin, applyFuzzy, hfr, fuzzyDirect, hm, not_le.mpr hlt]

/-- Witness for C2_amended at a concrete batch. -/
theorem C2_witness :
    (validateOptimizedRows [some "B"] [] ["ZZZZ"] (85 : ℚ)
        (fun _ => some ("ZZZZ", 50))).get? 0 =
      some ⟨some "B", false, none, none, 0⟩ :=
  C2_amended [some "B"] [] ["ZZZZ"] 85 (fun _ => some ("ZZZZ", 50)) 0 "B" "ZZZZ" 50
    (by decide) (by decide) (by decide) (by rfl) (by decide)

/-- Claim C3, counterexample.  The claim says the progress callback is always
invoked once at completion with fraction 1.0, including when every row is an
exact match.  In the code, when no row misses the exact stage the function
returns early (before the fuzzy section and before the final
`progress_callback(1.0)`), so on an all-exact batch the callback is never
invoked at all. -/
theorem C3_counterexample :
    isinRefSet ["JAKARTA"] (normalizeTempatLahir (some "JAKARTA")) = true ∧
    validateOptimizedCalls [some "JAKARTA"] [⟨"Jakarta", "Jakarta", "provinsi", "JAKARTA"⟩]
      ["JAKARTA"] 85 (fun _ => none) = [] :=
  ⟨by decide, by decide⟩

/-- Claim C3, amended.  Every fraction passed to the progress callback lies in
the interval from 0 to 1; when at least one row misses the exact stage the last
invocation is with fraction 1.0; but when every row is an exact match the
engine returns early and the callback is never invoked. -/
theorem C3_amended (data : List (Option String)) (refData : List RefRow)
    (refSet : List String) (θ : ℚ) (matcher : String → Option (String × ℚ)) :
    (∀ f ∈ validateOptimizedCalls data refData refSet θ matcher, 0 ≤ f ∧ f ≤ 1) ∧
    (fuzzyCandidateVals data refSet ≠ [] →
      (validateOptimizedCalls data refData refSet θ matcher).getLast? = some 1) ∧
    (fuzzyCandidateVals data refSet = [] →
      validateOptimizedCalls data refData refSet θ matcher = []) := by
  refine ⟨optCalls_bounds data refData refSet θ matcher, ?_, ?_⟩
  · intro h
    exact optCalls_last data refData refSet θ matcher h
  · intro h
    simp only [validateOptimizedCalls, validateOptimizedFull]
    rw [if_pos h]

/-- Witness for C3_amended at a concrete batch with one fuzzy value. -/
theorem C3_witness :
    (validateOptimizedCalls [some "B"] [] ["Z"] (85 : ℚ) (fun _ => none)).getLast? =
      some 1 :=
  (C3_amended [some "B"] [] ["Z"] 85 (fun _ => none)).2.1 (by decide)

set_option maxRecDepth 4000 in
/-- Claim C4, counterexample.  The claim says normalization is idempotent on
every upper-cased punctuation-free input.  The string "DESA DESA X" is such an
input, but one pass strips only the first "DESA " (the prefix loop tests each
prefix once), giving "DESA X", while a second pass strips again, giving "X". -/
theorem C4_counterexample :
    canonicalInput "DESA DESA X" ∧
    normalizeStr (normalizeStr "DESA DESA X") ≠ normalizeStr "DESA DESA X" :=
  ⟨by decide, by decide⟩

/-- Claim C4, amended.  Normalization is idempotent on every input (canonical
or not) whose normalized form does not itself begin with one of the
administrative prefixes; the counterexample shows the prefix-bearing outputs
are genuine exceptions. -/
theorem C4_amended (s : String)
    (h : ∀ p ∈ adminPrefixes, p.data.isPrefixOf (normalizeStr s).data = false) :
    normalizeStr (normalizeStr s) = normalizeStr s :=
  normalizeStr_idem_of s h

/-- Witness for C4_amended at a concrete input. -/
theorem C4_witness : normalizeStr (normalizeStr "PARIS") = normalizeStr "PARIS" :=
  C4_amended "PARIS" (by decide)

/-- Claim C5, counterexample.  The claim says at most one administrative prefix
is stripped, so an input starting with two strippable prefixes keeps the
second.  In the code each prefix of the ordered table is tested against the
evolving string, so "DESA KECAMATAN BANDUNG" loses both prefixes and
normalizes to "BANDUNG", not to "KECAMATAN BANDUNG". -/
theorem C5_counterexample :
    normalizeStr "DESA KECAMATAN BANDUNG" = "BANDUNG" ∧
    normalizeStr "DESA KECAMATAN BANDUNG" ≠ "KECAMATAN BANDUNG" :=
  ⟨by decide, by decide⟩

/-- Claim C5, amended.  The prefix-stripping loop makes one pass over the
ordered prefix table, testing each prefix once against the evolving string: a
string starting with no prefix is unchanged, a later-listed prefix exposed by
an earlier strip is stripped as well ("DESA KECAMATAN BANDUNG" becomes
"BANDUNG"), while an earlier-listed prefix exposed by a later strip is kept
("KECAMATAN DESA BANDUNG" becomes "DESA BANDUNG"). -/
theorem C5_amended :
    (∀ l : List Char, (∀ p ∈ adminPrefixes, p.data.isPrefixOf l = false) →
      stripAdmin l = l) ∧
    stripAdmin ("DESA KECAMATAN BANDUNG".data) = "BANDUNG".data ∧
    stripAdmin ("KECAMATAN DESA BANDUNG".data) = "DESA BANDUNG".data := by
  refine ⟨?_, by decide, by decide⟩
  intro l h
  exact stripAdmin_eq_self l h

/-- Witness for the universally quantified part of C5_amended. -/
theorem C5_witness : stripAdmin ("BANDUNG".data) = "BANDUNG".data :=
  C5_amended.1 ("BANDUNG".data) (by decide)

/-- Claim C6 (confirmed).  For every normalized query that is a key of the
gazetteer lookup (and hence, by the data-model invariant, a member of the
candidate set), the optimized engine marks the row valid with confidence score
exactly 100 and the canonical name and level from the lookup entry, and the
query is never among the values handed to the approximate-similarity stage. -/
theorem C6_exact_priority (data : List (Option String)) (refData : List RefRow)
    (refSet : List String) (θ : ℚ) (matcher : String → Option (String × ℚ))
    (i : ℕ) (q nm lv : String)
    (hq : exactMatchMap refData q = some (nm, lv)) (hqs : q ∈ refSet)
    (hi : (data.map normalizeTempatLahir).get? i = some (some q)) :
    (validateOptimizedRows data refData refSet θ matcher).get? i =
      some ⟨some q, true, some nm, some lv, 100⟩ ∧
    q ∉ matcherQueries data refSet := by
  have hnq : q ∉ matcherQueries data refSet := fun hc =>
    ((mem_matcherQueries data refSet q).mp hc).2.1 hqs
  refine ⟨?_, hnq⟩
  rw [optRows_get data refData refSet θ matcher i (some q) hi]
  have hin : isinRefSet refSet (some q) = true := by simp [isinRefSet, hqs]
  simp [exactStageRow, hin, hq, applyFuzzy, fuzzyResults_not_mem _ _ _ _ _ hnq]

/-- Witness for C6_exact_priority at a concrete batch. -/
theorem C6_witness :
    (validateOptimizedRows [some "Jakarta"] [⟨"Jakarta", "Jakarta", "provinsi", "JAKARTA"⟩]
        ["JAKARTA"] (85 : ℚ) (fun _ => none)).get? 0 =
      some ⟨some "JAKARTA", true, some "Jakarta", some "provinsi", 100⟩ ∧
    "JAKARTA" ∉ matcherQueries [some "Jakarta"] ["JAKARTA"] :=
  C6_exact_priority [some "Jakarta"] [⟨"Jakarta", "Jakarta", "provinsi", "JAKARTA"⟩]
    ["JAKARTA"] 85 (fun _ => none) 0 "JAKARTA" "Jakarta" "provinsi"
    (by decide) (by decide) (by decide)

/-- Claim C7 (confirmed).  The approximate-match acceptance boundary is
inclusive: for a query reaching the approximate stage whose best score equals
the threshold the row comes back found=true with that score, while for a best
score of threshold minus one it comes back found=false (with score 0). -/
theorem C7_threshold_boundary (data : List (Option String)) (refData : List RefRow)
    (refSet : List String) (θ : ℚ) (matcher : String → Option (String × ℚ))
    (i : ℕ) (s m : String)
    (hi : (data.map normalizeTempatLahir).get? i = some (some s))
    (hs : s ∉ refSet) (hne : s ≠ "") :
    (matcher s = some (m, θ) →
      ∃ nm lv, (validateOptimizedRows data refData refSet θ matcher).get? i =
        some ⟨some s, true, nm, lv, θ⟩) ∧
    (matcher s = some (m, θ - 1) →
      (validateOptimizedRows data refData refSet θ matcher).get? i =
        some ⟨some s, false, none, none, 0⟩) := by
  have hq : s ∈ matcherQueries data refSet :=
    (mem_matcherQueries _ _ s).mpr ⟨List.get?_mem hi, hs, hne⟩
  have hin : isinRefSet refSet (some s) = false := by simp [isinRefSet, hs]
  have hfr := fuzzyResults_mem (matcherQueries data refSet) (exactMatchMap refData)
    θ matcher s hq
  constructor
  · intro hm
    refine ⟨some ((exactMatchMap refData m).getD (m, "tidak diketahui")).1,
      some ((exactMatchMap refData m).getD (m, "tidak diketahui")).2, ?_⟩
    rw [optRows_get data refData refSet θ matcher i (some s) hi]
    simp [exactStageRow, hin, applyFuzzy, hfr, fuzzyDirect, hm, le_refl]
  · intro hm
    rw [optRows_get data refData refSet θ matcher i (some s) hi]
    have hnotle : ¬ (θ - 1 ≥ θ) := by linarith
    simp [exactStageRow, hin, applyFuzzy, hfr, fuzzyDirect, hm, hnotle]

/-- Witness for C7_threshold_boundary at a concrete batch with score exactly at
the threshold. -/
theorem C7_witness :
    ∃ nm lv, (validateOptimizedRows [some "B"] [] ["ZZZZ"] (85 : ℚ)
        (fun _ => some ("ZZZZ", 85))).get? 0 =
      some ⟨some "B", true, nm, lv, 85⟩ :=
  (C7_threshold_boundary [some "B"] [] ["ZZZZ"] 85 (fun _ => some ("ZZZZ", 85)) 0 "B" "ZZZZ"
    (by decide) (by decide) (by decide)).1 (by rfl)

/-- Claim C8, counterexample.  The claim says every row with a null or
empty-normalizing place field exits with found=false, score 0 and no
correction.  But the optimized engine tests candidate-set membership before
the emptiness check: when the empty string is itself a gazetteer key (a
reference name made of digits only normalizes to ""), an empty-normalizing row
exits valid with score 100 and a correction. -/
theorem C8_counterexample :
    normalizeTempatLahir (some "!!!") = some "" ∧
    validateOptimizedRows [some "!!!"] [⟨"123", "123", "desa", ""⟩] [""] 85 (fun _ => none) =
      [⟨some "", true, some "123", some "desa", 100⟩] :=
  ⟨by decide, by decide⟩

/-- Claim C8, amended.  Provided the empty string is not in the candidate set,
every row whose place field is null or normalizes to the empty string exits
with all five output fields populated as found=false, score 0, no corrected
name and no level; and such values are never handed to the similarity
computation (so they cannot make it raise). -/
theorem C8_amended (data : List (Option String)) (refData : List RefRow)
    (refSet : List String) (θ : ℚ) (matcher : String → Option (String × ℚ))
    (i : ℕ) (v : Option String) (hempty : "" ∉ refSet)
    (hi : (data.map normalizeTempatLahir).get? i = some v)
    (hv : v = none ∨ v = some "") :
    (validateOptimizedRows data refData refSet θ matcher).get? i =
      some ⟨v, false, none, none, 0⟩ ∧
    ∀ q ∈ matcherQueries data refSet, q ≠ "" := by
  have hq : ∀ q ∈ matcherQueries data refSet, q ≠ "" := fun q hc =>
    ((mem_matcherQueries data refSet q).mp hc).2.2
  refine ⟨?_, hq⟩
  rw [optRows_get data refData refSet θ matcher i v hi]
  rcases hv with hv | hv <;> subst hv
  · rfl
  · have hin : isinRefSet refSet (some "") = false := by simp [isinRefSet, hempty]
    have hnq : "" ∉ matcherQueries data refSet := fun hc => (hq "" hc) rfl
    simp [exactStageRow, hin, applyFuzzy, fuzzyResults_not_mem _ _ _ _ _ hnq]

/-- Witness for C8_amended at a concrete batch with one null row. -/
theorem C8_witness :
    (validateOptimizedRows [none] [] ["X"] (85 : ℚ) (fun _ => none)).get? 0 =
      some ⟨none, false, none, none, 0⟩ ∧
    ∀ q ∈ matcherQueries [none] ["X"], q ≠ "" :=
  C8_amended [none] [] ["X"] 85 (fun _ => none) 0 none (by decide) (by decide)
    (Or.inl rfl)

/-- Claim C9 (confirmed).  The lookup built by `load_reference_data` (as
consumed through `exact_match_map`) is last-write-wins in concatenation order:
for every normalized name, the mapped (canonical name, level) pair is the one
of the entry appearing latest in the village, district, regency, province
concatenation order — the first match in the reversed table. -/
theorem C9_last_write_wins (raw : List RawRow) (n : String) :
    exactMatchMap (loadReferenceData raw).1 n =
      ((loadReferenceData raw).1.reverse.find? (fun r => r.norm == n)).map
        (fun r => (r.nama, r.level)) :=
  exactMatchMap_eq (loadReferenceData raw).1 n

/-- Claim C10, counterexample.  The claim says the two engines agree for every
reference table and reference set.  With an inconsistent pair (a value in the
reference set that the reference table does not know), the naive engine uses
the dict `.get` fallback and marks the row valid with score 100 and the level
"tidak diketahui", while the optimized engine leaves the row invalid with
score 0 — so the five output columns differ. -/
theorem C10_counterexample :
    validateNaiveRows [some "X"] [] ["X"] 85 (fun _ => none) ≠
      validateOptimizedRows [some "X"] [] ["X"] 85 (fun _ => none) := by decide

/-- Claim C10, amended.  The naive row-by-row engine and the deduplicating
optimized engine produce identical values in all five augmented output columns
for every row, provided the reference set holds exactly the normalized names
of the reference table (as `load_reference_data` guarantees) and the empty
string is not among them. -/
theorem C10_amended (data : List (Option String)) (refData : List RefRow)
    (refSet : List String) (θ : ℚ) (matcher : String → Option (String × ℚ))
    (hset : ∀ n : String, n ∈ refSet ↔ n ∈ refData.map RefRow.norm)
    (hempty : "" ∉ refSet) :
    validateNaiveRows data refData refSet θ matcher =
      validateOptimizedRows data refData refSet θ matcher :=
  optNaive_eq data refData refSet θ matcher hset hempty

/-- Witness for C10_amended on a concrete batch with an exact row, a fuzzy
row and a null row over a consistent gazetteer. -/
theorem C10_witness :
    validateNaiveRows [some "Jakrta", some "Jakarta", none]
        [⟨"Jakarta", "Jakarta", "provinsi", "JAKARTA"⟩] ["JAKARTA"] (85 : ℚ)
        (fun _ => some ("JAKARTA", 92)) =
      validateOptimizedRows [some "Jakrta", some "Jakarta", none]
        [⟨"Jakarta", "Jakarta", "provinsi", "JAKARTA"⟩] ["JAKARTA"] 85
        (fun _ => some ("JAKARTA", 92)) :=
  C10_amended [some "Jakrta", some "Jakarta", none]
    [⟨"Jakarta", "Jakarta", "provinsi", "JAKARTA"⟩] ["JAKARTA"] 85
    (fun _ => some ("JAKARTA", 92)) (fun n => Iff.rfl) (by decide)
